import Mathlib

/-!
# Verification of `move.go` (package `chess`)

The file embeds the Go source in Lean and proves properties of it.

* `MoveTag` is a `uint16` bit set.  Only `&`, `|` and `> 0` are applied to it, none of
  which can overflow, so it is embedded as `Nat` (with `MoveTag.InRange` for the 16-bit
  bound, which `|` preserves).
* `Square`, `PieceType` and `Piece` are declared outside `move.go`; the code only needs
  equality on `Square` and `PieceType`, so they are type parameters.
* `*Move` is a Go pointer: `nil`, or the address of a `Move` held in a heap.  Dereferencing
  `nil` is a run-time panic, embedded as `Except.error GoPanic.nilDereference`.
-/

namespace Chess

/-! ## MoveTag -/

/-- A MoveTag represents a notable consequence of a move (`type MoveTag uint16`). -/
abbrev MoveTag := Nat

/-- The range of the `uint16` carrier of `MoveTag`. -/
def MoveTag.InRange (t : MoveTag) : Prop := t < 2 ^ 16

/-- KingSideCastle indicates that the move is a king side castle (`1 << iota`, iota = 0). -/
def KingSideCastle : MoveTag := 1 <<< 0
/-- QueenSideCastle indicates that the move is a queen side castle (iota = 1). -/
def QueenSideCastle : MoveTag := 1 <<< 1
/-- Capture indicates that the move captures a piece (iota = 2). -/
def Capture : MoveTag := 1 <<< 2
/-- EnPassant indicates that the move captures via en passant (iota = 3). -/
def EnPassant : MoveTag := 1 <<< 3
/-- Check indicates that the move puts the opposing player in check (iota = 4). -/
def Check : MoveTag := 1 <<< 4
/-- The tag inCheck indicates that the move puts the moving player in check (iota = 5). -/
def inCheck : MoveTag := 1 <<< 5

/-! ## Move -/

/-- A Move is the movement of a piece from one square to another
(fields in the order of the Go struct). -/
structure Move (Square PieceType Piece : Type) where
  s1 : Square
  s2 : Square
  promo : PieceType
  tags : MoveTag
  piece : Piece

section Methods

variable {Square PieceType Piece : Type}

/-- S1 returns the origin square of the move. -/
def Move.S1 (m : Move Square PieceType Piece) : Square := m.s1

/-- S2 returns the destination square of the move. -/
def Move.S2 (m : Move Square PieceType Piece) : Square := m.s2

/-- Promo returns promotion piece type of the move. -/
def Move.Promo (m : Move Square PieceType Piece) : PieceType := m.promo

/-- PieceMoved returns the piece that moves. -/
def Move.PieceMoved (m : Move Square PieceType Piece) : Piece := m.piece

/-- GetTags returns all of the MoveTag flags bitwise-ORed together. -/
def Move.GetTags (m : Move Square PieceType Piece) : MoveTag := m.tags

/-- HasTag: `return (tag & m.tags) > 0`. -/
def Move.HasTag (m : Move Square PieceType Piece) (tag : MoveTag) : Bool :=
  decide ((tag &&& m.tags) > 0)

/-- The method addTag: `m.tags = m.tags | tag`; the receiver after the call. -/
def Move.addTag (m : Move Square PieceType Piece) (tag : MoveTag) :
    Move Square PieceType Piece :=
  { m with tags := m.tags ||| tag }

/-- The triple `(s1, s2, promo)` of a move (used to state properties of `find`). -/
def Move.key (m : Move Square PieceType Piece) : Square × Square × PieceType :=
  (m.s1, m.s2, m.promo)

end Methods

/-! ## Pointers and moveSlice -/

/-- The run-time panics of the embedded code. -/
inductive GoPanic where
  | nilDereference
  deriving DecidableEq, Repr

/-- A `*Move`: `none` is `nil`, `some a` is the address `a` of a `Move`. -/
abbrev MovePtr := Option Nat

/-- The heap: the `Move` stored at each address. -/
abbrev Heap (Square PieceType Piece : Type) := Nat → Move Square PieceType Piece

/-- The Go type `moveSlice []*Move`. -/
abbrev moveSlice := List MovePtr

section Find

variable {Square PieceType Piece : Type} [DecidableEq Square] [DecidableEq PieceType]

/-- The loop `for _, move := range a { ... }` of `find`, for a non-nil query at address
`q`: reading `move.s1` through a nil entry panics; the first entry whose `s1`, `s2` and
`promo` equal the query's is returned; when the slice is exhausted the result is `nil`. -/
def findLoop (h : Heap Square PieceType Piece) (q : Nat) :
    moveSlice → Except GoPanic MovePtr
  | [] => .ok none
  | none :: _ => .error .nilDereference
  | some p :: rest =>
    if (h p).s1 = (h q).s1 ∧ (h p).s2 = (h q).s2 ∧ (h p).promo = (h q).promo then
      .ok (some p)
    else
      findLoop h q rest

/-- The method `func (a moveSlice) find(m *Move) *Move`. -/
def find (h : Heap Square PieceType Piece) (a : moveSlice) (m : MovePtr) :
    Except GoPanic MovePtr :=
  match m with
  | none => .ok none
  | some q => findLoop h q a

end Find

/-! ## The mutator through a pointer, the debug string, the tag list -/

/-- The call `m.addTag(tag)` on a `*Move` receiver: a nil receiver panics on `m.tags`;
otherwise the heap after the call holds, at the receiver's address, the move with
`tags | tag`, and is unchanged elsewhere. -/
def Heap.addTag {Square PieceType Piece : Type} (h : Heap Square PieceType Piece)
    (m : MovePtr) (tag : MoveTag) : Except GoPanic (Heap Square PieceType Piece) :=
  match m with
  | none => .error .nilDereference
  | some p => .ok (fun a => if a = p then (h a).addTag tag else h a)

/-- The methods of `Square`, `PieceType`, `Piece` and `Color` that `Move.String` calls.
They are declared outside `move.go` and are parameters of the embedding:
`Square.String`, `PieceType.String`, `Piece.Color`, `Color.Name` and `Piece.Type`. -/
structure Collaborators (Square PieceType Piece Color : Type) where
  squareString : Square → String
  pieceTypeString : PieceType → String
  pieceColor : Piece → Color
  colorName : Color → String
  pieceType : Piece → PieceType

/-- String returns a string useful for debugging: `m.s1.String() + m.s2.String() +
m.promo.String() + m.piece.Color().Name() + m.piece.Type().String()`. -/
def Move.String {Square PieceType Piece Color : Type}
    (c : Collaborators Square PieceType Piece Color) (m : Move Square PieceType Piece) :
    String :=
  c.squareString m.s1 ++ c.squareString m.s2 ++ c.pieceTypeString m.promo ++
    c.colorName (c.pieceColor m.piece) ++ c.pieceTypeString (c.pieceType m.piece)

/-- The six members of the `const` block, in declaration order. -/
def allTags : List MoveTag :=
  [KingSideCastle, QueenSideCastle, Capture, EnPassant, Check, inCheck]

/-- The union (`|`) of a list of tags; the empty list gives the empty tag set `0`. -/
def tagUnion (ts : List MoveTag) : MoveTag :=
  ts.foldl (fun acc t => acc ||| t) 0

/-! ## Concrete data used by the examples

Squares are numbered `0 … 63` (a1 = 0, b1 = 1, …, h8 = 63), piece types and pieces are
small numeric codes, as `Nat` instances of the type parameters. -/

/-- A heap with four moves: address 0 holds e2-e4 by a white pawn, address 1 holds g1-f3 by
a white knight, address 2 holds e2-e4 with a different piece code and tag set, every other
address holds a2-a3. -/
def exHeap : Heap Nat Nat Nat := fun a =>
  match a with
  | 0 => { s1 := 12, s2 := 28, promo := 0, tags := 0, piece := 6 }
  | 1 => { s1 := 6, s2 := 21, promo := 0, tags := 0, piece := 2 }
  | 2 => { s1 := 12, s2 := 28, promo := 0, tags := 20, piece := 12 }
  | _ => { s1 := 8, s2 := 16, promo := 0, tags := 0, piece := 6 }

/-- The move e5-d6 by a white pawn tagged `Capture` only. -/
def exCapture : Move Nat Nat Nat :=
  { s1 := 36, s2 := 43, promo := 0, tags := Capture, piece := 6 }

/-- The move e1-g1 by the white king tagged `KingSideCastle`. -/
def exCastle : Move Nat Nat Nat :=
  { s1 := 4, s2 := 6, promo := 0, tags := KingSideCastle, piece := 1 }

/-- A heap with promotions: address 0 holds e7-e8 promoting to a queen (type code 5),
address 1 holds e7-e8 promoting to a knight (type code 2), address 2 is a query for the
queen promotion and every other address a query for the knight promotion, both with another
piece code and tag set than the stored moves. -/
def exPromoHeap : Heap Nat Nat Nat := fun a =>
  match a with
  | 0 => { s1 := 52, s2 := 60, promo := 5, tags := 0, piece := 6 }
  | 1 => { s1 := 52, s2 := 60, promo := 2, tags := 0, piece := 6 }
  | 2 => { s1 := 52, s2 := 60, promo := 5, tags := 16, piece := 0 }
  | _ => { s1 := 52, s2 := 60, promo := 2, tags := 16, piece := 0 }

/-- Placeholder collaborators for the examples: a square prints as its file letter and rank
digit, piece type codes 0 … 6 print as the empty string, K, Q, R, B, N, P (0 is "none"),
piece codes below 7 are white pieces of that type and the others black pieces. -/
def exCollab : Collaborators Nat Nat Nat Bool where
  squareString := fun sq =>
    String.mk [Char.ofNat (97 + sq % 8), Char.ofNat (49 + sq / 8)]
  pieceTypeString := fun t =>
    match t with
    | 1 => "K"
    | 2 => "N"
    | 3 => "B"
    | 4 => "R"
    | 5 => "Q"
    | 6 => "P"
    | _ => ""
  pieceColor := fun pc => decide (pc < 7)
  colorName := fun col => if col then "White" else "Black"
  pieceType := fun pc => pc % 7

/-! ## Bit-level lemmas -/

section TagLemmas

variable {Square PieceType Piece : Type}

theorem HasTag_eq_true_iff (m : Move Square PieceType Piece) (t : MoveTag) :
    m.HasTag t = true ↔ t &&& m.tags ≠ 0 := by
  simp [Move.HasTag, Nat.pos_iff_ne_zero]

theorem and_ne_zero_iff_shared_bit (a b : Nat) :
    a &&& b ≠ 0 ↔ ∃ i, a.testBit i = true ∧ b.testBit i = true := by
  constructor
  · intro hne
    obtain ⟨i, hi⟩ := Nat.ne_zero_implies_bit_true hne
    rw [Nat.testBit_and, Bool.and_eq_true] at hi
    exact ⟨i, hi⟩
  · rintro ⟨i, ha, hb⟩ h0
    have hi : (a &&& b).testBit i = true := by
      rw [Nat.testBit_and, ha, hb]; rfl
    rw [h0, Nat.zero_testBit] at hi
    exact Bool.noConfusion hi

theorem two_pow_and_ne_zero_iff (k n : Nat) :
    2 ^ k &&& n ≠ 0 ↔ n.testBit k = true := by
  rw [and_ne_zero_iff_shared_bit]
  constructor
  · rintro ⟨i, h1, h2⟩
    rw [Nat.testBit_two_pow] at h1
    have hki : k = i := of_decide_eq_true h1
    rw [hki]; exact h2
  · intro hk
    exact ⟨k, Nat.testBit_two_pow_self, hk⟩

theorem two_pow_and_eq_self_iff (k n : Nat) :
    2 ^ k &&& n = 2 ^ k ↔ n.testBit k = true := by
  rw [Nat.two_pow_and]
  cases hb : n.testBit k
  · have hpos : 0 < 2 ^ k := Nat.two_pow_pos k
    simp
    omega
  · simp

theorem addTag_inRange (m : Move Square PieceType Piece) (t : MoveTag)
    (hm : MoveTag.InRange m.tags) (ht : MoveTag.InRange t) :
    MoveTag.InRange (m.addTag t).tags :=
  Nat.or_lt_two_pow hm ht

theorem key_eq_iff (m n : Move Square PieceType Piece) :
    m.key = n.key ↔ m.s1 = n.s1 ∧ m.s2 = n.s2 ∧ m.promo = n.promo := by
  simp [Move.key, Prod.mk.injEq]

end TagLemmas

/-! ## Tag queries (C1 – C3) -/

section TagClaims

variable {Square PieceType Piece : Type}

/-- C1 (code defect): on the move e5-d6 tagged `Capture` only, `HasTag(Capture | EnPassant)`
returns `true`, although the move does not contain the tag given: bit 3 (`EnPassant`) of the
query is not set in its tags and `(t & m.tags) == t` is false there.  `HasTag` tests
`(tag & m.tags) > 0`, so the claimed "all of" equivalence fails at this input. -/
theorem HasTag_all_of_fails :
    exCapture.HasTag (Capture ||| EnPassant) = true ∧
    exCapture.GetTags.testBit 3 = false ∧
    (Capture ||| EnPassant) &&& exCapture.tags ≠ Capture ||| EnPassant ∧
    ¬ (exCapture.HasTag (Capture ||| EnPassant) = true ↔
        (Capture ||| EnPassant) &&& exCapture.tags = Capture ||| EnPassant) := by
  decide

/-- C2: for every Move `m` and every tag with exactly one bit set, `2 ^ k`, `m.HasTag` is
true if and only if bit `k` is set in `m.GetTags()`, equivalently if and only if the tag is
contained in `m.GetTags()`; the six named tags are the one-bit values `2 ^ 0 … 2 ^ 5`. -/
theorem HasTag_single_flag (m : Move Square PieceType Piece) (k : Nat) :
    (m.HasTag (2 ^ k) = true ↔ m.GetTags.testBit k = true) ∧
    (m.HasTag (2 ^ k) = true ↔ 2 ^ k &&& m.GetTags = 2 ^ k) ∧
    [KingSideCastle, QueenSideCastle, Capture, EnPassant, Check, inCheck] =
      (List.range 6).map (fun i => 2 ^ i) := by
  refine ⟨?_, ?_, by decide⟩
  · rw [HasTag_eq_true_iff]
    exact two_pow_and_ne_zero_iff k m.tags
  · rw [HasTag_eq_true_iff, two_pow_and_ne_zero_iff]
    exact (two_pow_and_eq_self_iff k m.tags).symm

end TagClaims

/-! ## Lemmas on `find` -/

section FindLemmas

variable {Square PieceType Piece : Type} [DecidableEq Square] [DecidableEq PieceType]

theorem findLoop_cons_match (h : Heap Square PieceType Piece) (q p : Nat)
    (rest : moveSlice) (hk : (h p).key = (h q).key) :
    findLoop h q (some p :: rest) = .ok (some p) := by
  rw [key_eq_iff] at hk
  simp only [findLoop, hk, and_self, if_true]

theorem findLoop_cons_skip (h : Heap Square PieceType Piece) (q p : Nat)
    (rest : moveSlice) (hk : (h p).key ≠ (h q).key) :
    findLoop h q (some p :: rest) = findLoop h q rest := by
  rw [Ne, key_eq_iff] at hk
  simp only [findLoop, hk, if_false]

theorem findLoop_skip_all (h : Heap Square PieceType Piece) (q : Nat)
    (pre : List Nat) (rest : moveSlice) (hpre : ∀ a ∈ pre, (h a).key ≠ (h q).key) :
    findLoop h q (pre.map some ++ rest) = findLoop h q rest := by
  induction pre with
  | nil => rfl
  | cons a pre ih =>
    have ha : (h a).key ≠ (h q).key := hpre a (List.mem_cons_self a pre)
    have hrest : ∀ b ∈ pre, (h b).key ≠ (h q).key :=
      fun b hb => hpre b (List.mem_cons_of_mem a hb)
    show findLoop h q (some a :: (pre.map some ++ rest)) = findLoop h q rest
    rw [findLoop_cons_skip h q a _ ha]
    exact ih hrest

theorem findLoop_congr_query (h : Heap Square PieceType Piece) (q q' : Nat)
    (hk : (h q).key = (h q').key) (S : moveSlice) :
    findLoop h q S = findLoop h q' S := by
  induction S with
  | nil => rfl
  | cons x rest ih =>
    cases x with
    | none => rfl
    | some p =>
      by_cases hp : (h p).key = (h q).key
      · rw [findLoop_cons_match h q p rest hp, findLoop_cons_match h q' p rest (hp.trans hk)]
      · have hp' : (h p).key ≠ (h q').key := fun e => hp (e.trans hk.symm)
        rw [findLoop_cons_skip h q p rest hp, findLoop_cons_skip h q' p rest hp']
        exact ih

/-- When index `i` holds a matching entry and every earlier entry is a non-nil,
non-matching one, the loop returns the entry at index `i`. -/
theorem findLoop_at_index (h : Heap Square PieceType Piece) (q : Nat) :
    ∀ (S : moveSlice) (i p : Nat), S[i]? = some (some p) → (h p).key = (h q).key →
      (∀ j : Nat, j < i → ∃ r, S[j]? = some (some r) ∧ (h r).key ≠ (h q).key) →
      findLoop h q S = .ok (some p)
  | [], i, p, hi, _, _ => by simp at hi
  | x :: rest, 0, p, hi, hk, _ => by
    have hx : x = some p := by simpa using hi
    rw [hx]
    exact findLoop_cons_match h q p rest hk
  | x :: rest, i + 1, p, hi, hk, hb => by
    obtain ⟨r, hr, hne⟩ := hb 0 (Nat.succ_pos i)
    have hx : x = some r := by simpa using hr
    rw [hx, findLoop_cons_skip h q r rest hne]
    refine findLoop_at_index h q rest i p (by simpa using hi) hk ?_
    intro j hj
    obtain ⟨r', hr', hne'⟩ := hb (j + 1) (Nat.succ_lt_succ hj)
    exact ⟨r', by simpa using hr', hne'⟩

/-- Whatever the loop returns is an entry of the slice with the query's key. -/
theorem findLoop_sound (h : Heap Square PieceType Piece) (q : Nat) :
    ∀ (S : moveSlice) (p : Nat), findLoop h q S = .ok (some p) →
      some p ∈ S ∧ (h p).key = (h q).key
  | [], p, hf => by simp [findLoop] at hf
  | none :: rest, p, hf => by simp [findLoop] at hf
  | some a :: rest, p, hf => by
    by_cases ha : (h a).key = (h q).key
    · rw [findLoop_cons_match h q a rest ha] at hf
      have hap : a = p := by
        injection hf with hf'
        injection hf'
      subst hap
      exact ⟨List.mem_cons_self _ _, ha⟩
    · rw [findLoop_cons_skip h q a rest ha] at hf
      obtain ⟨hm, hk⟩ := findLoop_sound h q rest p hf
      exact ⟨List.mem_cons_of_mem _ hm, hk⟩

/-- The loop never misses: with no nil entry and no matching entry the result is nil. -/
theorem findLoop_none (h : Heap Square PieceType Piece) (q : Nat) :
    ∀ (S : moveSlice), none ∉ S → (∀ p, some p ∈ S → (h p).key ≠ (h q).key) →
      findLoop h q S = .ok none
  | [], _, _ => rfl
  | none :: rest, hnn, _ => absurd (List.mem_cons_self _ _) hnn
  | some a :: rest, hnn, hno => by
    rw [findLoop_cons_skip h q a rest (hno a (List.mem_cons_self _ _))]
    exact findLoop_none h q rest (fun hm => hnn (List.mem_cons_of_mem _ hm))
      (fun p hp => hno p (List.mem_cons_of_mem _ hp))

/-- The three possible outcomes of the loop. -/
theorem findLoop_outcome (h : Heap Square PieceType Piece) (q : Nat) :
    ∀ (S : moveSlice),
      (∃ r, findLoop h q S = .ok r ∧ (r = none ∨ r ∈ S)) ∨
      (findLoop h q S = .error .nilDereference ∧ none ∈ S)
  | [] => Or.inl ⟨none, rfl, Or.inl rfl⟩
  | none :: rest => Or.inr ⟨rfl, List.mem_cons_self _ _⟩
  | some a :: rest => by
    by_cases ha : (h a).key = (h q).key
    · rw [findLoop_cons_match h q a rest ha]
      exact Or.inl ⟨some a, rfl, Or.inr (List.mem_cons_self _ _)⟩
    · rw [findLoop_cons_skip h q a rest ha]
      rcases findLoop_outcome h q rest with ⟨r, hr, hmem⟩ | ⟨he, hmem⟩
      · refine Or.inl ⟨r, hr, ?_⟩
        rcases hmem with h0 | h1
        · exact Or.inl h0
        · exact Or.inr (List.mem_cons_of_mem _ h1)
      · exact Or.inr ⟨he, List.mem_cons_of_mem _ hmem⟩

/-- With a matching entry that no nil entry precedes, the loop returns the entry at the
smallest matching index. -/
theorem findLoop_first_match (h : Heap Square PieceType Piece) (q : Nat) :
    ∀ (S : moveSlice),
      (∃ (i p : Nat), S[i]? = some (some p) ∧ (h p).key = (h q).key ∧
        ∀ j : Nat, j < i → S[j]? ≠ some none) →
      ∃ (i p : Nat), S[i]? = some (some p) ∧ findLoop h q S = .ok (some p) ∧
        (h p).key = (h q).key ∧
        ∀ j : Nat, j < i → ∀ r, S[j]? = some (some r) → (h r).key ≠ (h q).key
  | [], ⟨i, p, hi, _, _⟩ => by simp at hi
  | none :: rest, ⟨0, p, hi, _, _⟩ => by simp at hi
  | none :: rest, ⟨i + 1, p, _, _, hnn⟩ => by
    exact absurd (by simp) (hnn 0 (Nat.succ_pos i))
  | some a :: rest, ⟨i, p, hi, hk, hnn⟩ => by
    by_cases ha : (h a).key = (h q).key
    · exact ⟨0, a, by simp, findLoop_cons_match h q a rest ha, ha,
        fun j hj => absurd hj (Nat.not_lt_zero j)⟩
    · cases i with
      | zero =>
        have hap : a = p := by simpa using hi
        exact absurd (hap ▸ hk) ha
      | succ i =>
        have hrest : ∃ (i p : Nat), rest[i]? = some (some p) ∧ (h p).key = (h q).key ∧
            ∀ j : Nat, j < i → rest[j]? ≠ some none :=
          ⟨i, p, by simpa using hi, hk, fun j hj => by
            simpa using hnn (j + 1) (Nat.succ_lt_succ hj)⟩
        obtain ⟨i0, p0, h0, hf, hk0, hmin⟩ := findLoop_first_match h q rest hrest
        refine ⟨i0 + 1, p0, by simpa using h0, ?_, hk0, ?_⟩
        · rw [findLoop_cons_skip h q a rest ha]
          exact hf
        · intro j hj r hr
          cases j with
          | zero =>
            have har : a = r := by simpa using hr
            exact har ▸ ha
          | succ j =>
            exact hmin j (Nat.lt_of_succ_lt_succ hj) r (by simpa using hr)

/-- With no nil entry, a stored move with the query's key makes the loop succeed. -/
theorem findLoop_of_mem (h : Heap Square PieceType Piece) (q b : Nat) (S : moveSlice)
    (hnn : none ∉ S) (hb : some b ∈ S) (hk : (h b).key = (h q).key) :
    ∃ r, findLoop h q S = .ok (some r) ∧ some r ∈ S ∧ (h r).key = (h q).key := by
  obtain ⟨i, hi⟩ := List.mem_iff_getElem?.mp hb
  have hex : ∃ (i p : Nat), S[i]? = some (some p) ∧ (h p).key = (h q).key ∧
      ∀ j : Nat, j < i → S[j]? ≠ some none :=
    ⟨i, b, hi, hk, fun j _ hj => hnn (List.mem_iff_getElem?.mpr ⟨j, hj⟩)⟩
  obtain ⟨_, r, _, hf, hkr, _⟩ := findLoop_first_match h q S hex
  exact ⟨r, hf, (findLoop_sound h q S r hf).1, hkr⟩

end FindLemmas

/-! ## Lookup in a moveSlice (C4 – C10) -/

section FindClaims

variable {Square PieceType Piece : Type} [DecidableEq Square] [DecidableEq PieceType]

/-- C4 (counterexample): in the slice `[&g1f3, nil, &e2e4]` the last element has the key of
the query e2-e4, yet `find` does not return it: the scan dereferences the nil entry. -/
theorem find_first_match_nil_entry :
    (∃ p, some p ∈ [some 1, none, some 0] ∧ (exHeap p).key = (exHeap 2).key) ∧
    find exHeap [some 1, none, some 0] (some 2) = .error .nilDereference :=
  ⟨⟨0, by simp, rfl⟩, rfl⟩

/-- C4 (amended): for every moveSlice `S` and every non-nil query `q` such that some element
of `S` has the same `(s1, s2, promo)` as `q` and no nil entry precedes it, `S.find(q)`
returns the element at the smallest index whose `(s1, s2, promo)` equals `q`'s; no element
before the returned one matches. -/
theorem find_first_match (h : Heap Square PieceType Piece) (S : moveSlice) (q : Nat)
    (hex : ∃ (i p : Nat), S[i]? = some (some p) ∧ (h p).key = (h q).key ∧
      ∀ j : Nat, j < i → S[j]? ≠ some none) :
    ∃ (i p : Nat), S[i]? = some (some p) ∧ find h S (some q) = .ok (some p) ∧
      (h p).key = (h q).key ∧
      ∀ j : Nat, j < i → ∀ r, S[j]? = some (some r) → (h r).key ≠ (h q).key :=
  findLoop_first_match h q S hex

/-- C4 (witness): the query e2-e4 in `[&g1f3, &e2e4, &e2e4bis, nil]`. -/
theorem find_first_match_witness :
    ∃ (i p : Nat), [some 1, some 0, some 2, none][i]? = some (some p) ∧
      find exHeap [some 1, some 0, some 2, none] (some 2) = .ok (some p) ∧
      (exHeap p).key = (exHeap 2).key ∧
      ∀ j : Nat, j < i → ∀ r, [some 1, some 0, some 2, none][j]? = some (some r) →
        (exHeap r).key ≠ (exHeap 2).key :=
  find_first_match exHeap [some 1, some 0, some 2, none] 2
    ⟨1, 0, rfl, rfl, fun j hj => by
      have hj0 : j = 0 := by omega
      subst hj0
      simp⟩

/-- C5 (counterexample): no element of the slice `[nil]` has the key of the query g1-f3, yet
`find` does not return nil: it fails on the nil entry. -/
theorem find_no_match_nil_entry :
    (∀ p, some p ∈ [(none : MovePtr)] → (exHeap p).key ≠ (exHeap 1).key) ∧
    find exHeap [none] (some 1) = .error .nilDereference :=
  ⟨fun p hp => by simp at hp, rfl⟩

/-- C5 (amended): for every moveSlice `S` without nil entries and every non-nil query `q`
such that no element of `S` has the same `(s1, s2, promo)` as `q`, `S.find(q)` returns nil;
in particular `find` on the empty sequence always returns nil. -/
theorem find_no_match (h : Heap Square PieceType Piece) (S : moveSlice) (q : Nat)
    (hnn : none ∉ S) (hno : ∀ p, some p ∈ S → (h p).key ≠ (h q).key) :
    find h S (some q) = .ok none ∧ ∀ m : MovePtr, find h [] m = .ok none := by
  refine ⟨findLoop_none h q S hnn hno, ?_⟩
  intro m
  cases m <;> rfl

/-- C5 (witness): the query a2-a3 (address 3) in `[&e2e4, &g1f3]`. -/
theorem find_no_match_witness :
    find exHeap [some 0, some 1] (some 3) = .ok none ∧
    ∀ m : MovePtr, find exHeap [] m = .ok none :=
  find_no_match exHeap [some 0, some 1] 3 (by simp) (by
    intro p hp
    have hp01 : p = 0 ∨ p = 1 := by simpa using hp
    rcases hp01 with rfl | rfl <;> decide)

/-- C6: `find` ignores piece and tags.  Two non-nil queries `q` and `q'` with equal
`(s1, s2, promo)`, whatever their pieces and tags, get the same outcome from `S.find`, for
every moveSlice `S`; and a stored move `p` with the key of the query is returned as soon as
the scan reaches it, whatever its piece and tags and those of the query. -/
theorem find_ignores_piece_and_tags (h : Heap Square PieceType Piece) (S : moveSlice)
    (q q' : Nat) (hk : (h q).key = (h q').key) :
    find h S (some q) = find h S (some q') ∧
    ∀ (pre : List Nat) (p : Nat) (post : moveSlice),
      (∀ a ∈ pre, (h a).key ≠ (h q).key) → (h p).key = (h q).key →
      find h (pre.map some ++ some p :: post) (some q) = .ok (some p) := by
  refine ⟨findLoop_congr_query h q q' hk S, ?_⟩
  intro pre p post hpre hp
  show findLoop h q (pre.map some ++ some p :: post) = .ok (some p)
  rw [findLoop_skip_all h q pre _ hpre]
  exact findLoop_cons_match h q p post hp

/-- C6 (witness): the queries at addresses 2 and 0 are both e2-e4 but differ in piece and
tags; both find the stored e2-e4 at address 0, whose piece and tags differ from those of the
query at address 2. -/
theorem find_ignores_piece_and_tags_witness :
    (exHeap 2).key = (exHeap 0).key ∧ (exHeap 2).piece ≠ (exHeap 0).piece ∧
    (exHeap 2).tags ≠ (exHeap 0).tags ∧
    find exHeap [some 1, some 0] (some 2) = find exHeap [some 1, some 0] (some 0) ∧
    find exHeap [some 1, some 0] (some 2) = .ok (some 0) :=
  ⟨rfl, by decide, by decide,
    (find_ignores_piece_and_tags exHeap [some 1, some 0] 2 0 rfl).1,
    (find_ignores_piece_and_tags exHeap [some 1, some 0] 2 0 rfl).2 [1] 0 []
      (by intro a ha; have ha1 : a = 1 := by simpa using ha
          subst ha1; decide) rfl⟩

/-- C7: promotion is part of lookup identity.  Whenever `S.find(q)` returns a move `p`, `p`
is an element of `S` and `p.s1 == q.s1`, `p.s2 == q.s2` and `p.promo == q.promo`.  So for
the sequence holding a queen promotion `a` and a knight promotion `b` on the same squares,
in either order, the knight query returns `b` and the queen query returns `a`; and in any
sequence without nil entries that holds them, the knight query returns an entry promoting to
the knight and the queen query an entry promoting to the queen. -/
theorem find_returns_key_match (h : Heap Square PieceType Piece) :
    (∀ (S : moveSlice) (q p : Nat), find h S (some q) = .ok (some p) →
      some p ∈ S ∧ (h p).s1 = (h q).s1 ∧ (h p).s2 = (h q).s2 ∧
        (h p).promo = (h q).promo) ∧
    (∀ (a b qq qk : Nat) (e7 e8 : Square) (queen knight : PieceType),
      queen ≠ knight →
      (h a).key = (e7, e8, queen) → (h b).key = (e7, e8, knight) →
      (h qq).key = (e7, e8, queen) → (h qk).key = (e7, e8, knight) →
      (find h [some a, some b] (some qk) = .ok (some b) ∧
       find h [some b, some a] (some qk) = .ok (some b) ∧
       find h [some a, some b] (some qq) = .ok (some a) ∧
       find h [some b, some a] (some qq) = .ok (some a)) ∧
      ∀ S : moveSlice, none ∉ S → some a ∈ S → some b ∈ S →
        (∃ r, find h S (some qk) = .ok (some r) ∧ some r ∈ S ∧
          (h r).key = (e7, e8, knight)) ∧
        (∃ r, find h S (some qq) = .ok (some r) ∧ some r ∈ S ∧
          (h r).key = (e7, e8, queen))) := by
  constructor
  · intro S q p hf
    obtain ⟨hm, hkey⟩ := findLoop_sound h q S p hf
    exact ⟨hm, (key_eq_iff _ _).mp hkey⟩
  · intro a b qq qk e7 e8 queen knight hne ha hb hqq hqk
    have hab : (h a).key ≠ (h qk).key := by
      rw [ha, hqk]
      intro e
      exact hne (congrArg (fun t => t.2.2) e)
    have hba : (h b).key ≠ (h qq).key := by
      rw [hb, hqq]
      intro e
      exact hne (congrArg (fun t => t.2.2) e).symm
    have haa : (h a).key = (h qq).key := ha.trans hqq.symm
    have hbb : (h b).key = (h qk).key := hb.trans hqk.symm
    refine ⟨⟨?_, ?_, ?_, ?_⟩, ?_⟩
    · show findLoop h qk [some a, some b] = _
      rw [findLoop_cons_skip h qk a _ hab]
      exact findLoop_cons_match h qk b _ hbb
    · exact findLoop_cons_match h qk b _ hbb
    · exact findLoop_cons_match h qq a _ haa
    · show findLoop h qq [some b, some a] = _
      rw [findLoop_cons_skip h qq b _ hba]
      exact findLoop_cons_match h qq a _ haa
    · intro S hnn haS hbS
      constructor
      · obtain ⟨r, hf, hm, hkr⟩ := findLoop_of_mem h qk b S hnn hbS hbb
        exact ⟨r, hf, hm, hkr.trans hqk⟩
      · obtain ⟨r, hf, hm, hkr⟩ := findLoop_of_mem h qq a S hnn haS haa
        exact ⟨r, hf, hm, hkr.trans hqq⟩

/-- C7 (witness): e7-e8=Q stored at address 0 and e7-e8=N at address 1; the knight query at
address 3 returns address 1 and the queen query at address 2 returns address 0, in both
orders of the sequence. -/
theorem find_returns_key_match_witness :
    find exPromoHeap [some 0, some 1] (some 3) = .ok (some 1) ∧
    find exPromoHeap [some 1, some 0] (some 3) = .ok (some 1) ∧
    find exPromoHeap [some 0, some 1] (some 2) = .ok (some 0) ∧
    find exPromoHeap [some 1, some 0] (some 2) = .ok (some 0) :=
  ((find_returns_key_match exPromoHeap).2 0 1 2 3 52 60 5 2 (by decide)
    rfl rfl rfl rfl).1

/-- C8 (counterexample): the elements of `[nil, &g1f3]` have pairwise distinct keys and
g1-f3 is an element, yet `find` of that very element does not return it: the scan fails on
the nil entry before reaching it. -/
theorem find_unique_key_nil_entry :
    (∀ (i j a b : Nat), [none, some 1][i]? = some (some a) →
      [none, some 1][j]? = some (some b) → (exHeap a).key = (exHeap b).key → i = j) ∧
    some 1 ∈ [none, some 1] ∧
    find exHeap [none, some 1] (some 1) = .error .nilDereference := by
  refine ⟨?_, by simp, rfl⟩
  intro i j a b hi hj _
  have hi1 : i = 1 := by
    rcases i with _ | _ | i
    · simp at hi
    · rfl
    · simp at hi
  have hj1 : j = 1 := by
    rcases j with _ | _ | j
    · simp at hj
    · rfl
    · simp at hj
  rw [hi1, hj1]

/-- C8 (amended): for every moveSlice `S` whose elements have pairwise distinct
`(s1, s2, promo)` keys and every element `p` of `S` that no nil entry precedes, `S.find(q)`
returns exactly `p` for every non-nil query `q` with `q.s1 == p.s1`, `q.s2 == p.s2`,
`q.promo == p.promo`; in particular `S.find(p) == p`. -/
theorem find_unique_key (h : Heap Square PieceType Piece) (S : moveSlice) (i p q : Nat)
    (hd : ∀ (i j a b : Nat), S[i]? = some (some a) → S[j]? = some (some b) →
      (h a).key = (h b).key → i = j)
    (hi : S[i]? = some (some p)) (hnn : ∀ j : Nat, j < i → S[j]? ≠ some none)
    (hq : (h q).s1 = (h p).s1 ∧ (h q).s2 = (h p).s2 ∧ (h q).promo = (h p).promo) :
    find h S (some q) = .ok (some p) ∧ find h S (some p) = .ok (some p) := by
  have hqk : (h q).key = (h p).key := (key_eq_iff _ _).mpr hq
  have hbefore : ∀ j : Nat, j < i →
      ∃ r, S[j]? = some (some r) ∧ (h r).key ≠ (h p).key := by
    intro j hj
    have hlen : i < S.length := (List.getElem?_eq_some_iff.mp hi).1
    have hjl : j < S.length := Nat.lt_trans hj hlen
    cases hx : S[j] with
    | none =>
      exact absurd (by rw [List.getElem?_eq_getElem hjl, hx]) (hnn j hj)
    | some r =>
      refine ⟨r, by rw [List.getElem?_eq_getElem hjl, hx], ?_⟩
      intro e
      have hji : j = i := hd j i r p (by rw [List.getElem?_eq_getElem hjl, hx]) hi e
      omega
  constructor
  · refine findLoop_at_index h q S i p hi hqk.symm ?_
    intro j hj
    obtain ⟨r, hr, hne⟩ := hbefore j hj
    exact ⟨r, hr, fun e => hne (e.trans hqk)⟩
  · exact findLoop_at_index h p S i p hi rfl hbefore

/-- C8 (witness): in `[&g1f3, &e2e4, nil]` the query at address 2, which is e2-e4 with
another piece and tag set, and the element at address 0 itself both find address 0. -/
theorem find_unique_key_witness :
    find exHeap [some 1, some 0, none] (some 2) = .ok (some 0) ∧
    find exHeap [some 1, some 0, none] (some 0) = .ok (some 0) :=
  find_unique_key exHeap [some 1, some 0, none] 1 0 2
    (by
      intro i j a b hi hj e
      rcases i with _ | _ | _ | i <;> rcases j with _ | _ | _ | j <;>
        simp at hi hj <;> subst hi <;> subst hj <;> first | rfl | exact absurd e (by decide))
    rfl
    (by
      intro j hj
      have hj0 : j = 0 := by omega
      subst hj0
      simp)
    ⟨rfl, rfl, rfl⟩

/-- C9: for every moveSlice `S` (empty or not, with or without nil entries) and every heap,
`S.find(nil)` returns nil; no element is inspected. -/
theorem find_nil_query (h : Heap Square PieceType Piece) (S : moveSlice) :
    find h S none = .ok none :=
  rfl

end FindClaims

/-! ## The mutator `addTag` (C11 – C13) -/

section AddTagLemmas

variable {Square PieceType Piece : Type}

theorem addTag_key (m : Move Square PieceType Piece) (t : MoveTag) :
    (m.addTag t).key = m.key :=
  rfl

theorem or_or_self (a t : Nat) : (a ||| t) ||| t = a ||| t := by
  rw [Nat.or_assoc, Nat.or_self]

/-- The loop only reads keys: two heaps with the same keys give the same outcome. -/
theorem findLoop_congr_heap [DecidableEq Square] [DecidableEq PieceType]
    (h h' : Heap Square PieceType Piece)
    (hkey : ∀ a, (h' a).key = (h a).key) (q : Nat) (S : moveSlice) :
    findLoop h' q S = findLoop h q S := by
  induction S with
  | nil => rfl
  | cons x rest ih =>
    cases x with
    | none => rfl
    | some p =>
      by_cases hp : (h p).key = (h q).key
      · have hp' : (h' p).key = (h' q).key := by rw [hkey p, hkey q]; exact hp
        rw [findLoop_cons_match h q p rest hp, findLoop_cons_match h' q p rest hp']
      · have hp' : (h' p).key ≠ (h' q).key := by rw [hkey p, hkey q]; exact hp
        rw [findLoop_cons_skip h q p rest hp, findLoop_cons_skip h' q p rest hp']
        exact ih

end AddTagLemmas

section AddTagClaims

variable {Square PieceType Piece : Type}

/-- C11: for every Move `m` and every MoveTag `t`, `addTag(t)` sets `m`'s tags to the
bitwise union `old_tags | t` and never clears a bit: every bit set in `m.GetTags()` before
the call is still set after it, and every bit set after the call was set before or is a bit
of `t`. -/
theorem addTag_union (m : Move Square PieceType Piece) (t : MoveTag) :
    (m.addTag t).GetTags = m.GetTags ||| t ∧
    (∀ i, m.GetTags.testBit i = true → (m.addTag t).GetTags.testBit i = true) ∧
    (∀ i, (m.addTag t).GetTags.testBit i = true →
      m.GetTags.testBit i = true ∨ t.testBit i = true) := by
  refine ⟨rfl, ?_, ?_⟩
  · intro i hi
    show (m.tags ||| t).testBit i = true
    rw [Nat.testBit_or]
    exact Bool.or_eq_true_iff.mpr (Or.inl hi)
  · intro i hi
    have hi' : (m.tags ||| t).testBit i = true := hi
    rw [Nat.testBit_or] at hi'
    exact Bool.or_eq_true_iff.mp hi'

/-- C11 (witness): the castle tagged `KingSideCastle` keeps bit 0 when `Check` is added, and
bit 4, set afterwards, is a bit of `Check`. -/
theorem addTag_union_witness :
    (exCastle.addTag Check).GetTags = 17 ∧
    (exCastle.addTag Check).GetTags.testBit 0 = true ∧
    (exCastle.GetTags.testBit 4 = true ∨ Check.testBit 4 = true) :=
  ⟨(addTag_union exCastle Check).1,
    (addTag_union exCastle Check).2.1 0 (by decide),
    (addTag_union exCastle Check).2.2 4 (by decide)⟩

/-- C12: `addTag` is idempotent: for every Move `m` and every MoveTag `t`, applying
`addTag(t)` twice leaves `m` in exactly the same state (all five fields) as applying it
once; the same holds for the heap when the call goes through a pointer. -/
theorem addTag_idempotent (m : Move Square PieceType Piece) (t : MoveTag) :
    (m.addTag t).addTag t = m.addTag t ∧
    ∀ (h : Heap Square PieceType Piece) (r : MovePtr),
      (Heap.addTag h r t >>= fun h1 => Heap.addTag h1 r t) = Heap.addTag h r t := by
  have hval : ∀ n : Move Square PieceType Piece, (n.addTag t).addTag t = n.addTag t := by
    intro n
    show ({ n with tags := (n.tags ||| t) ||| t } : Move Square PieceType Piece) =
      { n with tags := n.tags ||| t }
    rw [or_or_self]
  refine ⟨hval m, ?_⟩
  intro h r
  cases r with
  | none => rfl
  | some p =>
    show Heap.addTag (fun a => if a = p then (h a).addTag t else h a) (some p) t =
      Heap.addTag h (some p) t
    show Except.ok _ = Except.ok _
    congr 1
    funext a
    by_cases hap : a = p
    · simp only [hap, if_true]
      exact hval (h p)
    · simp only [hap, if_false]

/-- C13: `addTag` changes only the tags field: for every Move `m` and every MoveTag `t`,
after `m.addTag(t)` the values of `S1()`, `S2()`, `Promo()` and `PieceMoved()` are the same
as before the call, so is the key `(s1, s2, promo)`, and the result of every `find` on the
heap after the call is the result on the heap before it. -/
theorem addTag_frame [DecidableEq Square] [DecidableEq PieceType]
    (m : Move Square PieceType Piece) (t : MoveTag) :
    (m.addTag t).S1 = m.S1 ∧ (m.addTag t).S2 = m.S2 ∧ (m.addTag t).Promo = m.Promo ∧
    (m.addTag t).PieceMoved = m.PieceMoved ∧ (m.addTag t).key = m.key ∧
    ∀ (h : Heap Square PieceType Piece) (p : Nat) (S : moveSlice) (q : MovePtr),
      ∃ h1, Heap.addTag h (some p) t = .ok h1 ∧ h1 p = (h p).addTag t ∧
        find h1 S q = find h S q := by
  refine ⟨rfl, rfl, rfl, rfl, rfl, ?_⟩
  intro h p S q
  refine ⟨fun a => if a = p then (h a).addTag t else h a, rfl, by simp, ?_⟩
  cases q with
  | none => rfl
  | some a =>
    refine findLoop_congr_heap h _ ?_ a S
    intro b
    by_cases hb : b = p
    · simp only [hb, if_true]
      exact addTag_key (h p) t
    · simp only [hb, if_false]

end AddTagClaims

/-! ## Accessors, debug string, tag constants (C14 – C17) -/

section ValueLemmas

variable {Square PieceType Piece : Type}

theorem HasTag_or (m : Move Square PieceType Piece) (a b : MoveTag) :
    m.HasTag (a ||| b) = (m.HasTag a || m.HasTag b) := by
  rw [Bool.eq_iff_iff, Bool.or_eq_true, HasTag_eq_true_iff, HasTag_eq_true_iff,
    HasTag_eq_true_iff, and_ne_zero_iff_shared_bit, and_ne_zero_iff_shared_bit,
    and_ne_zero_iff_shared_bit]
  constructor
  · rintro ⟨i, hab, hm⟩
    rw [Nat.testBit_or, Bool.or_eq_true] at hab
    rcases hab with ha | hb
    · exact Or.inl ⟨i, ha, hm⟩
    · exact Or.inr ⟨i, hb, hm⟩
  · rintro (⟨i, ha, hm⟩ | ⟨i, hb, hm⟩)
    · exact ⟨i, by rw [Nat.testBit_or, ha]; rfl, hm⟩
    · exact ⟨i, by rw [Nat.testBit_or, hb, Bool.or_true], hm⟩

end ValueLemmas

section ValueClaims

variable {Square PieceType Piece Color : Type}

/-- C14: for every Move `m` built from fields `(s1, s2, promo, piece, tags)`:
`m.S1() == s1`, `m.S2() == s2`, `m.Promo() == promo`, `m.PieceMoved() == piece` and
`m.GetTags() == tags`; each accessor returns its own stored field verbatim, and (being a
read-only function of the receiver) leaves `m` unchanged: the five results rebuild `m`. -/
theorem accessors_return_fields (s1 s2 : Square) (promo : PieceType) (piece : Piece)
    (tags : MoveTag) (m : Move Square PieceType Piece) :
    (Move.mk s1 s2 promo tags piece).S1 = s1 ∧
    (Move.mk s1 s2 promo tags piece).S2 = s2 ∧
    (Move.mk s1 s2 promo tags piece).Promo = promo ∧
    (Move.mk s1 s2 promo tags piece).PieceMoved = piece ∧
    (Move.mk s1 s2 promo tags piece).GetTags = tags ∧
    Move.mk m.S1 m.S2 m.Promo m.GetTags m.PieceMoved = m :=
  ⟨rfl, rfl, rfl, rfl, rfl, rfl⟩

/-- C15: for every Move `m`, `m.String()` is the concatenation, in this order and with no
separators, of the text form of `s1`, the text form of `s2`, the text form of `promo`, the
colour name of the moved piece and the text form of the moved piece's type; it does not
depend on the tags.  With collaborator spellings "e2", "e4", "", "White", "P" the result is
"e2e4WhiteP", and with "e7", "e8", "Q", "White", "P" it is "e7e8QWhiteP". -/
theorem String_concat (c : Collaborators Square PieceType Piece Color)
    (m : Move Square PieceType Piece) :
    Move.String c m = String.join [c.squareString m.s1, c.squareString m.s2,
      c.pieceTypeString m.promo, c.colorName (c.pieceColor m.piece),
      c.pieceTypeString (c.pieceType m.piece)] ∧
    (∀ t : MoveTag, Move.String c { m with tags := t } = Move.String c m) ∧
    (c.squareString m.s1 = "e2" → c.squareString m.s2 = "e4" →
      c.pieceTypeString m.promo = "" → c.colorName (c.pieceColor m.piece) = "White" →
      c.pieceTypeString (c.pieceType m.piece) = "P" → Move.String c m = "e2e4WhiteP") ∧
    (c.squareString m.s1 = "e7" → c.squareString m.s2 = "e8" →
      c.pieceTypeString m.promo = "Q" → c.colorName (c.pieceColor m.piece) = "White" →
      c.pieceTypeString (c.pieceType m.piece) = "P" → Move.String c m = "e7e8QWhiteP") := by
  refine ⟨?_, fun _ => rfl, ?_, ?_⟩
  · simp [Move.String, String.join]
  · intro h1 h2 h3 h4 h5
    simp only [Move.String, h1, h2, h3, h4, h5]
    decide
  · intro h1 h2 h3 h4 h5
    simp only [Move.String, h1, h2, h3, h4, h5]
    decide

/-- C15 (witness): with the placeholder collaborators, the white pawn move e2-e4 prints as
"e2e4WhiteP" whatever its tags, and the promotion e7-e8 to a queen as "e7e8QWhiteP". -/
theorem String_concat_witness :
    Move.String exCollab { s1 := 12, s2 := 28, promo := 0, tags := 0, piece := 6 } =
      "e2e4WhiteP" ∧
    Move.String exCollab { s1 := 52, s2 := 60, promo := 5, tags := Check, piece := 6 } =
      "e7e8QWhiteP" :=
  ⟨(String_concat exCollab { s1 := 12, s2 := 28, promo := 0, tags := 0, piece := 6 }).2.2.1
      (by decide) (by decide) (by decide) (by decide) (by decide),
    (String_concat exCollab
      { s1 := 52, s2 := 60, promo := 5, tags := Check, piece := 6 }).2.2.2
      (by decide) (by decide) (by decide) (by decide) (by decide)⟩

/-- C16: the six MoveTag members are the pairwise distinct one-bit values 1, 2, 4, 8, 16,
32, no member overlaps another, the 64 subsets have 64 distinct union values (the numbers
0 … 63), and every such union fits in the `uint16` carrier. -/
theorem tags_independent_bits :
    allTags = [1, 2, 4, 8, 16, 32] ∧
    allTags = (List.range 6).map (fun k => 2 ^ k) ∧
    allTags.Nodup ∧
    allTags.Pairwise (fun a b => a &&& b = 0) ∧
    allTags.sublists.length = 64 ∧
    (allTags.sublists.map tagUnion).Nodup ∧
    allTags.sublists.map tagUnion = List.range 64 ∧
    ∀ s ∈ allTags.sublists, MoveTag.InRange (tagUnion s) := by
  refine ⟨by decide, by decide, by decide, by decide, by decide, by decide, by decide, ?_⟩
  unfold MoveTag.InRange
  decide

/-- C16 (witness): the union of all six members is 63, within the 16-bit range. -/
theorem tags_independent_bits_witness :
    tagUnion allTags = 63 ∧ MoveTag.InRange (tagUnion allTags) :=
  ⟨by decide, tags_independent_bits.2.2.2.2.2.2.2 allTags (by decide)⟩

/-- C17: `HasTag` as implemented is an "any of" test: for every Move `m` and all MoveTag
values `a` and `b`, `m.HasTag(a | b) == (m.HasTag(a) || m.HasTag(b))`, and `m.HasTag(0)` is
false for every `m`; equivalently `HasTag(t)` holds exactly when `t` and `m.tags` share at
least one bit. -/
theorem HasTag_any_of (m : Move Square PieceType Piece) (a b : MoveTag) :
    m.HasTag (a ||| b) = (m.HasTag a || m.HasTag b) ∧
    m.HasTag 0 = false ∧
    (∀ t : MoveTag,
      m.HasTag t = true ↔ ∃ i, t.testBit i = true ∧ m.GetTags.testBit i = true) := by
  refine ⟨HasTag_or m a b, ?_, ?_⟩
  · simp [Move.HasTag]
  · intro t
    rw [HasTag_eq_true_iff]
    exact and_ne_zero_iff_shared_bit t m.tags

end ValueClaims

/-! ## Lookup and concatenation (C18) -/

section AppendClaims

variable {Square PieceType Piece : Type} [DecidableEq Square] [DecidableEq PieceType]

/-- The scan of `S ++ T` is the scan of `S`, continued in `T` when `S` is exhausted. -/
theorem findLoop_append (h : Heap Square PieceType Piece) (q : Nat) (T : moveSlice) :
    ∀ S : moveSlice, findLoop h q (S ++ T) =
      match findLoop h q S with
      | .ok none => findLoop h q T
      | r => r
  | [] => rfl
  | none :: rest => rfl
  | some p :: rest => by
    by_cases hp : (h p).key = (h q).key
    · show findLoop h q (some p :: (rest ++ T)) = _
      rw [findLoop_cons_match h q p _ hp, findLoop_cons_match h q p _ hp]
    · show findLoop h q (some p :: (rest ++ T)) = _
      rw [findLoop_cons_skip h q p _ hp, findLoop_cons_skip h q p _ hp]
      exact findLoop_append h q T rest

/-- C18: `find` distributes over concatenation: for all moveSlices `S` and `T` and every
query `q`, `find(S ++ T, q)` equals `find(S, q)` when that is non-nil (or fails) and equals
`find(T, q)` when `find(S, q)` is nil; so for slices of non-nil moves it is `find(S, q)`
when that is non-nil and `find(T, q)` otherwise, and appending a move to the end of `S`
leaves the result of every lookup that already succeeded unchanged. -/
theorem find_append (h : Heap Square PieceType Piece) (S T : moveSlice) (q : MovePtr) :
    (find h (S ++ T) q =
      match find h S q with
      | .ok none => find h T q
      | r => r) ∧
    (none ∉ S → ∃ r, find h S q = .ok r ∧
      (r ≠ none → find h (S ++ T) q = .ok r) ∧
      (r = none → find h (S ++ T) q = find h T q)) ∧
    (∀ (p : Nat) (m : MovePtr), find h S q = .ok (some p) →
      find h (S ++ [m]) q = .ok (some p)) := by
  have happ : ∀ T' : moveSlice, find h (S ++ T') q =
      match find h S q with
      | .ok none => find h T' q
      | r => r := by
    intro T'
    cases q with
    | none => rfl
    | some a => exact findLoop_append h a T' S
  refine ⟨happ T, ?_, ?_⟩
  · intro hnn
    have hok : ∃ r, find h S q = .ok r := by
      cases q with
      | none => exact ⟨none, rfl⟩
      | some a =>
        rcases findLoop_outcome h a S with ⟨r, hr, _⟩ | ⟨_, hmem⟩
        · exact ⟨r, hr⟩
        · exact absurd hmem hnn
    obtain ⟨r, hr⟩ := hok
    refine ⟨r, hr, ?_, ?_⟩
    · intro hne
      rw [happ T, hr]
      cases r with
      | none => exact absurd rfl hne
      | some p => rfl
    · intro he
      rw [happ T, hr, he]
  · intro p m hf
    rw [happ [m], hf]

/-- C18 (witness): in `[&g1f3, &e2e4]` the query e2-e4 finds address 0, and still does after
an append of another e2-e4 or of nil; the query a2-a3, not found in `[&g1f3]`, is looked up
in the appended part. -/
theorem find_append_witness :
    find exHeap ([some 1, some 0] ++ [some 2]) (some 2) = .ok (some 0) ∧
    find exHeap ([some 1, some 0] ++ [none]) (some 2) = .ok (some 0) ∧
    (∃ r, find exHeap [some 1] (some 3) = .ok r ∧
      (r ≠ none → find exHeap ([some 1] ++ [some 4]) (some 3) = .ok r) ∧
      (r = none → find exHeap ([some 1] ++ [some 4]) (some 3) =
        find exHeap [some 4] (some 3))) :=
  ⟨(find_append exHeap [some 1, some 0] [] (some 2)).2.2 0 (some 2) rfl,
    (find_append exHeap [some 1, some 0] [] (some 2)).2.2 0 none rfl,
    (find_append exHeap [some 1] [some 4] (some 3)).2.1 (by simp)⟩

end AppendClaims

end Chess
